import Mathlib

/- Shallow embedding of the path-utils crate (src/path-utils/src/normalize.rs,
   src/path-utils/src/error.rs, src/src/validate.rs).

   Rust strings are modelled as lists of characters (List Char).  PathBuf on the
   Unix platform is a thin wrapper around a string, so paths are also List Char.
   Filesystem canonicalization of the trusted root (fs::canonicalize) is the one
   effectful operation; it is modelled as an oracle parameter
   canon : List Char → Option (List Char), where none stands for an I/O error.
   The cfg!(windows) compile-time flag is modelled as an explicit Bool
   parameter wincfg; the Unix branch is wincfg = false. -/

namespace PathUtils

/-- Rust char::is_whitespace: the Unicode White_Space property, written out as
the explicit code-point list. -/
def rustIsWhitespace (c : Char) : Bool :=
  let n := c.toNat
  n = 0x20 || (0x9 ≤ n && n ≤ 0xD) || n = 0x85 || n = 0xA0 || n = 0x1680 ||
  (0x2000 ≤ n && n ≤ 0x200A) || n = 0x2028 || n = 0x2029 || n = 0x202F ||
  n = 0x205F || n = 0x3000

/-- Rust char::is_control: the Unicode Cc category, i.e. U+0000..U+001F and
U+007F..U+009F. -/
def isControlRust (c : Char) : Bool :=
  c.toNat < 0x20 || (0x7F ≤ c.toNat && c.toNat ≤ 0x9F)

/-- Rust str::to_uppercase, restricted to the ASCII fold.  The reserved-name
table compared against contains only the ASCII characters A C L M N O P R T U X
and the digits 1-9, and no character outside a-z has a Unicode uppercase
mapping landing on those code points, so the ASCII fold is observationally
equivalent for the reserved-name membership test the code performs. -/
def rustUpperChar (c : Char) : Char :=
  if 97 ≤ c.toNat && c.toNat ≤ 122 then Char.ofNat (c.toNat - 32) else c

/-- Rust str::trim: drop Unicode whitespace from both ends. -/
def rustTrim (l : List Char) : List Char :=
  ((l.dropWhile rustIsWhitespace).reverse.dropWhile rustIsWhitespace).reverse

/-- Rust str::trim_start_matches with a single-char pattern: drop every leading
occurrence. -/
def trimStartMatches (c : Char) (l : List Char) : List Char :=
  l.dropWhile (fun d => d = c)

/-- Rust str::trim_end_matches with a single-char pattern: drop every trailing
occurrence. -/
def trimEndMatches (c : Char) (l : List Char) : List Char :=
  (l.reverse.dropWhile (fun d => d = c)).reverse

/-- Rust str::split with a single-char pattern.  Always returns at least one
(possibly empty) segment, exactly like the Rust iterator. -/
def splitOnChar (sep : Char) : List Char → List (List Char)
  | [] => [[]]
  | c :: cs =>
    match splitOnChar sep cs with
    | [] => [[]]
    | s :: ss => if c = sep then [] :: s :: ss else (c :: s) :: ss

/-- Vec::join with a single-char separator. -/
def joinSep (sep : Char) : List (List Char) → List Char
  | [] => []
  | [s] => s
  | s :: t :: ss => s ++ sep :: joinSep sep (t :: ss)

/-- The character replacement performed by path.replace(backslash, slash). -/
def replSep (c : Char) : Char := if c = '\\' then '/' else c

/-- Split on the forward slash and discard empty segments (the
split/filter part of normalize_path_str, reused by the Unix path component
parser). -/
def splitSegs (l : List Char) : List (List Char) :=
  (splitOnChar '/' l).filter (fun s => !s.isEmpty)

/-- The segment list of normalize_path_str: replace backslashes, split on the
slash, discard empty segments. -/
def normSegs (l : List Char) : List (List Char) :=
  splitSegs (l.map replSep)

/-- normalize_path_str from src/path-utils/src/normalize.rs: replace
backslashes with slashes, split on the slash, drop empty components, rejoin
with single slashes. -/
def normalize_path_str (l : List Char) : List Char :=
  joinSep '/' (normSegs l)

/-- join_and_normalize from src/path-utils/src/normalize.rs: trim the trailing
slash from the base and the leading slash from the path, then normalize the
concatenation; if either side becomes empty, normalize the other side alone.
normalize_path_buf is normalize_path_str transported through PathBuf, which on
Unix is the identity on the underlying string. -/
def join_and_normalize (base path : List Char) : List Char :=
  if (trimEndMatches '/' base).isEmpty then
    normalize_path_str (trimStartMatches '/' path)
  else if (trimStartMatches '/' path).isEmpty then
    normalize_path_str (trimEndMatches '/' base)
  else
    normalize_path_str
      (trimEndMatches '/' base ++ '/' :: trimStartMatches '/' path)

/-- Rust str::contains with a string pattern: substring occurrence. -/
def hasSubstr (pat : List Char) : List Char → Bool
  | [] => pat.isEmpty
  | c :: cs => pat.isPrefixOf (c :: cs) || hasSubstr pat cs

/-- The Windows-problematic character list checked by the validator and the
sanitizer. -/
def badChars : List Char := ['<', '>', '|', '?', '*', '"']

/-- The dangerous-control-character predicate used by the validator and the
sanitizer: a control character other than newline and tab. -/
def isDangerControl (c : Char) : Bool :=
  isControlRust c && !(c = '\n' : Bool) && !(c = '\t' : Bool)

/-- The reserved Windows device names. -/
def reservedNames : List (List Char) :=
  (["CON", "PRN", "AUX", "NUL", "COM1", "COM2", "COM3", "COM4", "COM5",
    "COM6", "COM7", "COM8", "COM9", "LPT1", "LPT2", "LPT3", "LPT4", "LPT5",
    "LPT6", "LPT7", "LPT8", "LPT9"]).map String.toList

/-- component_upper.split(dot).next().unwrap_or(empty): the uppercased portion
of a component before its first dot. -/
def baseNameOf (comp : List Char) : List Char :=
  (comp.map rustUpperChar).takeWhile (fun c => !(c = '.' : Bool))

/-- The reserved-name test applied to one path component. -/
def isReservedComp (comp : List Char) : Bool :=
  reservedNames.contains (baseNameOf comp)

/-- PathError from src/path-utils/src/error.rs. -/
inductive PathError where
  | pathTraversal (path : List Char)
  | emptyPath
  | invalidCharacters (path : List Char)
  | reservedFilename (filename : List Char) (path : List Char)
  | driveLetterPath (path : List Char)
  | validationFailed (message : List Char)
  | constructionFailed (message : List Char)
  | ioError (message : List Char)
deriving DecidableEq

deriving instance DecidableEq for Except

/-- The chained component iterator of the validator: the full split on the
slash followed by the full split on the backslash, exactly as
path_str.split(slash).chain(path_str.split(backslash)) produces it. -/
def chainComps (l : List Char) : List (List Char) :=
  splitOnChar '/' l ++ splitOnChar '\\' l

/-- is_safe_path from src/src/validate.rs. -/
def is_safe_path (l : List Char) : Bool :=
  if (rustTrim l).isEmpty then false
  else if hasSubstr ['.', '.'] l then false
  else if l.contains '\x00' || l.any isDangerControl then false
  else if badChars.any (fun c => l.contains c) then false
  else if (chainComps l).any isReservedComp then false
  else true

/-- validate_path from src/src/validate.rs. -/
def validate_path (l : List Char) : Except PathError Unit :=
  if (rustTrim l).isEmpty then .error .emptyPath
  else if hasSubstr ['.', '.'] l then .error (.pathTraversal l)
  else if l.contains '\x00' || l.any isDangerControl then
    .error (.invalidCharacters l)
  else if badChars.any (fun c => l.contains c) then
    .error (.invalidCharacters l)
  else
    match (chainComps l).find? isReservedComp with
    | some comp => .error (.reservedFilename comp l)
    | none => .ok ()

/-- The rebinding of the normalized string after the absolute-prefix strip in
sanitize_directory_file_path: when the normalized string begins with a slash,
every leading slash is stripped, otherwise it is left unchanged. -/
def strippedNorm (path : List Char) : List Char :=
  if (normalize_path_str path).head? = some '/' then
    trimStartMatches '/' (normalize_path_str path)
  else normalize_path_str path

/-- sanitize_directory_file_path from src/path-utils/src/normalize.rs, with
the two let bindings of the Rust body named normalize_path_str and
strippedNorm.  The wincfg flag is cfg!(windows); the byte-length test of the
drive-letter check (normalized.len() greater than 1) is expressed on the
character list, which agrees with the byte count whenever the second character
exists, and the whole condition is false in either reading when it does
not. -/
def sanitize_directory_file_path (wincfg : Bool) (path : List Char) :
    Except PathError (List Char) :=
  if (rustTrim path).isEmpty then .error .emptyPath
  else if hasSubstr ['.', '.'] (normalize_path_str path) then
    .error (.pathTraversal path)
  else if wincfg && (strippedNorm path).length > 1 &&
      decide ((strippedNorm path)[1]? = some ':') then
    .error (.driveLetterPath path)
  else if (strippedNorm path).contains '\x00' ||
      (strippedNorm path).any isDangerControl then
    .error (.invalidCharacters path)
  else if badChars.any (fun c => (strippedNorm path).contains c) then
    .error (.invalidCharacters path)
  else
    match (splitOnChar '/' (strippedNorm path)).find? isReservedComp with
    | some comp => .error (.reservedFilename comp path)
    | none => .ok (strippedNorm path)

/-- A component of a Unix path, mirroring std::path::Component (the Prefix
case is Windows-only and cannot arise on the Unix branch). -/
inductive RComponent where
  | rootDir
  | curDir
  | parentDir
  | normal (s : List Char)
deriving DecidableEq

/-- Parse one non-dot segment into a component. -/
def mkComp (s : List Char) : RComponent :=
  if s = ['.', '.'] then .parentDir else .normal s

/-- The components contributed by the segments after the front of the path:
inner dot segments are skipped, double-dot becomes ParentDir. -/
def bodyComps (segs : List (List Char)) : List RComponent :=
  (segs.filter (fun s => !(s = ['.'] : Bool))).map mkComp

/-- std::path::Path::components on Unix: a leading slash yields RootDir; a
relative path contributes CurDir only when its first segment is a literal dot;
every other dot segment is skipped; double-dot segments become ParentDir. -/
def components (l : List Char) : List RComponent :=
  if l.head? = some '/' then .rootDir :: bodyComps (splitSegs l)
  else
    match splitSegs l with
    | [] => []
    | s :: rest =>
      (if s = ['.'] then .curDir else mkComp s) :: bodyComps rest

/-- std::path::PathBuf::push on Unix for the second operand: an absolute
operand replaces the buffer; otherwise a separator is inserted exactly when
the buffer is non-empty and does not already end in one. -/
def pbJoin (a b : List Char) : List Char :=
  if b.head? = some '/' then b
  else
    match a.getLast? with
    | none => b
    | some c => if c = '/' then a ++ b else a ++ '/' :: b

/-- std::path::Path::strip_prefix, componentwise: when the component list of
the base is a prefix of the component list of the path, the remaining
components; none otherwise.  (Rust reparses the remaining raw slice, which can
additionally surface a leading CurDir; that difference is invisible to the
ParentDir scan performed on the result.) -/
def stripPrefixC (cb cp : List RComponent) : Option (List RComponent) :=
  if cb <+: cp then some (cp.drop cb.length) else none

/-- The ParentDir test of the final scan in safe_repository_join. -/
def isParentDir : RComponent → Bool
  | .parentDir => true
  | _ => false

/-- safe_repository_join from src/path-utils/src/normalize.rs.  canon is the
fs::canonicalize oracle for the workdir; none models an I/O failure.  The
error message strings carried by IoError and ConstructionFailed are abbreviated
forms of the formatted Rust messages; no claim concerns their text. -/
def safe_repository_join (wincfg : Bool)
    (canon : List Char → Option (List Char))
    (workdir targetPath filePath : List Char) :
    Except PathError (List Char) :=
  match sanitize_directory_file_path wincfg filePath with
  | .error e => .error e
  | .ok sanitizedFilePath =>
    match canon workdir with
    | none => .error (.ioError ("Cannot canonicalize workdir".toList))
    | some workdirCanonical =>
      match stripPrefixC (components workdirCanonical)
          (components (pbJoin
            (pbJoin workdirCanonical (normalize_path_str targetPath))
            sanitizedFilePath)) with
      | none =>
        .error (.constructionFailed
          ("Path construction failed - result not within workdir".toList))
      | some relativeToWorkdir =>
        if relativeToWorkdir.any isParentDir then
          .error (.pathTraversal (".. components not allowed".toList))
        else .ok (pbJoin
          (pbJoin workdirCanonical (normalize_path_str targetPath))
          sanitizedFilePath)

/-- The path payload of a violation, for the errors that carry one. -/
def payloadPath : PathError → Option (List Char)
  | .pathTraversal p => some p
  | .invalidCharacters p => some p
  | .reservedFilename _ p => some p
  | .driveLetterPath p => some p
  | _ => none

/-- Discriminates the ConstructionFailed outcome of a path operation. -/
def isConstructionFailedE {α : Type} : Except PathError α → Bool
  | .error (.constructionFailed _) => true
  | _ => false

/-- Modelled from the spec: the joint segmentation named by the validator rule
for reserved names, which reads "splitting on both the slash and the
backslash", i.e. a single split treating either character as a separator.
The source code instead chains two independent full splits; this definition
exists to state that spec sentence and compare it with the code. -/
def splitOnSeps : List Char → List (List Char)
  | [] => [[]]
  | c :: cs =>
    match splitOnSeps cs with
    | [] => [[]]
    | s :: ss =>
      if c = '/' ∨ c = '\\' then [] :: s :: ss else (c :: s) :: ss

/- Helper lemmas about the split and join primitives. -/

theorem splitOnChar_ne_nil (sep : Char) (l : List Char) :
    splitOnChar sep l ≠ [] := by
  cases l with
  | nil => simp [splitOnChar]
  | cons c cs =>
    simp only [splitOnChar]
    split
    · simp
    · split <;> simp

theorem splitOnChar_append (sep : Char) (u v : List Char) :
    splitOnChar sep (u ++ sep :: v) = splitOnChar sep u ++ splitOnChar sep v := by
  induction u with
  | nil =>
    simp only [List.nil_append, splitOnChar]
    cases h : splitOnChar sep v with
    | nil => exact absurd h (splitOnChar_ne_nil sep v)
    | cons s ss => simp
  | cons c cs ih =>
    simp only [List.cons_append, splitOnChar, List.append_eq]
    rw [ih]
    cases h : splitOnChar sep cs with
    | nil => exact absurd h (splitOnChar_ne_nil sep cs)
    | cons s ss =>
      by_cases hc : c = sep <;> simp [hc]

theorem splitOnChar_of_not_mem (sep : Char) (l : List Char) (h : sep ∉ l) :
    splitOnChar sep l = [l] := by
  induction l with
  | nil => simp [splitOnChar]
  | cons c cs ih =>
    simp only [splitOnChar]
    have hc : ¬(c = sep) := fun hh => h (hh ▸ List.mem_cons_self c cs)
    have hcs : splitOnChar sep cs = [cs] :=
      ih (fun hm => h (List.mem_cons_of_mem c hm))
    rw [hcs]
    simp [hc]

theorem mem_of_mem_splitOnChar {sep : Char} {l s : List Char} {c : Char}
    (hs : s ∈ splitOnChar sep l) (hc : c ∈ s) : c ∈ l ∧ c ≠ sep := by
  induction l generalizing s with
  | nil =>
    rw [show s = [] by simpa [splitOnChar] using hs] at hc
    simp at hc
  | cons d ds ih =>
    simp only [splitOnChar] at hs
    cases h : splitOnChar sep ds with
    | nil => exact absurd h (splitOnChar_ne_nil sep ds)
    | cons t ts =>
      rw [h] at hs
      have hs2 : s ∈ (if d = sep then ([] : List Char) :: t :: ts
          else (d :: t) :: ts) := hs
      clear hs
      by_cases hd : d = sep
      · rw [if_pos hd] at hs2
        simp only [List.mem_cons] at hs2
        rcases hs2 with hs | hs | hs
        · subst hs; simp at hc
        · have := ih (s := s) (by rw [h, hs]; exact List.mem_cons_self t ts) hc
          exact ⟨List.mem_cons_of_mem d this.1, this.2⟩
        · have := ih (s := s) (by rw [h]; exact List.mem_cons_of_mem t hs) hc
          exact ⟨List.mem_cons_of_mem d this.1, this.2⟩
      · rw [if_neg hd] at hs2
        simp only [List.mem_cons] at hs2
        rcases hs2 with hs | hs
        · subst hs
          rcases List.mem_cons.mp hc with hcd | hct
          · subst hcd
            exact ⟨List.mem_cons_self c ds, hd⟩
          · have := ih (s := t) (by rw [h]; exact List.mem_cons_self t ts) hct
            exact ⟨List.mem_cons_of_mem d this.1, this.2⟩
        · have := ih (s := s) (by rw [h]; exact List.mem_cons_of_mem t hs) hc
          exact ⟨List.mem_cons_of_mem d this.1, this.2⟩

theorem mem_joinSep {sep : Char} {segs : List (List Char)} {c : Char}
    (h : c ∈ joinSep sep segs) : c = sep ∨ ∃ s ∈ segs, c ∈ s := by
  induction segs with
  | nil => simp [joinSep] at h
  | cons s ss ih =>
    cases ss with
    | nil =>
      simp only [joinSep] at h
      exact Or.inr ⟨s, by simp, h⟩
    | cons t ts =>
      simp only [joinSep] at h
      rcases List.mem_append.mp h with h1 | h2
      · exact Or.inr ⟨s, by simp, h1⟩
      · rcases List.mem_cons.mp h2 with h2a | h2b
        · exact Or.inl h2a
        · rcases ih h2b with h3 | ⟨u, hu, hcu⟩
          · exact Or.inl h3
          · exact Or.inr ⟨u, List.mem_cons_of_mem s hu, hcu⟩

theorem joinSep_ne_nil {sep : Char} {segs : List (List Char)}
    (h1 : segs ≠ []) (h2 : ∀ s ∈ segs, s ≠ []) : joinSep sep segs ≠ [] := by
  cases segs with
  | nil => exact absurd rfl h1
  | cons s ss =>
    cases ss with
    | nil => exact h2 s (by simp)
    | cons t ts =>
      simp only [joinSep]
      cases s with
      | nil => simp
      | cons c cs => simp

theorem joinSep_head {sep : Char} {segs : List (List Char)}
    (h2 : ∀ s ∈ segs, s ≠ [] ∧ sep ∉ s) :
    (joinSep sep segs).head? ≠ some sep := by
  cases segs with
  | nil => simp [joinSep]
  | cons s ss =>
    have hs := h2 s (by simp)
    cases s with
    | nil => exact absurd rfl hs.1
    | cons c cs =>
      have hc : c ≠ sep := fun h => hs.2 (h ▸ List.mem_cons_self c cs)
      cases ss with
      | nil => simpa [joinSep] using hc
      | cons t ts => simpa [joinSep] using hc

theorem getLast?_append_ne {α : Type} (a b : List α) (hb : b ≠ []) :
    (a ++ b).getLast? = b.getLast? := by
  rw [List.getLast?_append]
  cases hx : b.getLast? with
  | none => exact absurd (List.getLast?_eq_none_iff.mp hx) hb
  | some x => rfl

theorem joinSep_getLast {sep : Char} {segs : List (List Char)}
    (h2 : ∀ s ∈ segs, s ≠ [] ∧ sep ∉ s) :
    (joinSep sep segs).getLast? ≠ some sep := by
  induction segs with
  | nil => simp [joinSep]
  | cons s ss ih =>
    cases ss with
    | nil =>
      have hs := h2 s (by simp)
      simp only [joinSep]
      intro hcon
      rw [List.getLast?_eq_getLast s hs.1] at hcon
      exact hs.2 (Option.some.inj hcon ▸ List.getLast_mem hs.1)
    | cons t ts =>
      have hrest : ∀ x ∈ t :: ts, x ≠ [] ∧ sep ∉ x :=
        fun x hx => h2 x (List.mem_cons_of_mem s hx)
      have hne : joinSep sep (t :: ts) ≠ [] :=
        joinSep_ne_nil (by simp) (fun x hx => (hrest x hx).1)
      simp only [joinSep]
      rw [show s ++ sep :: joinSep sep (t :: ts) =
            s ++ [sep] ++ joinSep sep (t :: ts) by simp,
          getLast?_append_ne _ _ hne]
      exact ih hrest

theorem splitOnChar_joinSep {sep : Char} {segs : List (List Char)}
    (hne : segs ≠ []) (h : ∀ s ∈ segs, s ≠ [] ∧ sep ∉ s) :
    splitOnChar sep (joinSep sep segs) = segs := by
  induction segs with
  | nil => exact absurd rfl hne
  | cons s ss ih =>
    cases ss with
    | nil =>
      simp only [joinSep]
      exact splitOnChar_of_not_mem sep s (h s (by simp)).2
    | cons t ts =>
      simp only [joinSep]
      rw [splitOnChar_append, splitOnChar_of_not_mem sep s (h s (by simp)).2,
        ih (by simp) (fun x hx => h x (List.mem_cons_of_mem s hx))]
      simp [joinSep]

/- Helper lemmas about normalization. -/

theorem normSegs_good (l : List Char) :
    ∀ s ∈ normSegs l, s ≠ [] ∧ '/' ∉ s ∧ '\\' ∉ s := by
  intro s hs
  simp only [normSegs, splitSegs, List.mem_filter] at hs
  obtain ⟨hmem, hne⟩ := hs
  refine ⟨by simpa using hne, ?_, ?_⟩
  · intro hc
    exact absurd rfl (mem_of_mem_splitOnChar hmem hc).2
  · intro hc
    have hin := (mem_of_mem_splitOnChar hmem hc).1
    simp only [List.mem_map] at hin
    obtain ⟨d, _, hd⟩ := hin
    by_cases hdd : d = '\\' <;> simp [replSep, hdd] at hd

theorem normSegs_append (x y : List Char) :
    normSegs (x ++ '/' :: y) = normSegs x ++ normSegs y := by
  simp only [normSegs, splitSegs, List.map_append, List.map_cons]
  rw [show replSep '/' = '/' from rfl, splitOnChar_append, List.filter_append]

theorem normSegs_joinSep {segs : List (List Char)}
    (h : ∀ s ∈ segs, s ≠ [] ∧ '/' ∉ s ∧ '\\' ∉ s) :
    normSegs (joinSep '/' segs) = segs := by
  cases segs with
  | nil => simp [normSegs, splitSegs, joinSep, splitOnChar]
  | cons s ss =>
    have hmap : (joinSep '/' (s :: ss)).map replSep = joinSep '/' (s :: ss) := by
      have hall : ∀ c ∈ joinSep '/' (s :: ss), replSep c = c := by
        intro c hc
        rcases mem_joinSep hc with h1 | ⟨u, hu, hcu⟩
        · subst h1; rfl
        · have : c ≠ '\\' := fun he => (h u hu).2.2 (he ▸ hcu)
          simp [replSep, this]
      rw [List.map_congr_left (g := id) (fun a ha => hall a ha), List.map_id]
    simp only [normSegs, hmap, splitSegs]
    rw [splitOnChar_joinSep (by simp) (fun x hx => ⟨(h x hx).1, (h x hx).2.1⟩)]
    rw [List.filter_eq_self.mpr]
    intro a ha
    simpa using (h a ha).1

theorem normSegs_normalize (l : List Char) :
    normSegs (normalize_path_str l) = normSegs l :=
  normSegs_joinSep (normSegs_good l)

theorem normalize_idem_aux (l : List Char) :
    normalize_path_str (normalize_path_str l) = normalize_path_str l := by
  unfold normalize_path_str
  rw [show normSegs (joinSep '/' (normSegs l)) = normSegs l from
    normSegs_joinSep (normSegs_good l)]

theorem normalize_head (l : List Char) :
    (normalize_path_str l).head? ≠ some '/' :=
  joinSep_head (fun s hs => ⟨(normSegs_good l s hs).1, (normSegs_good l s hs).2.1⟩)

theorem normalize_getLast (l : List Char) :
    (normalize_path_str l).getLast? ≠ some '/' :=
  joinSep_getLast (fun s hs => ⟨(normSegs_good l s hs).1, (normSegs_good l s hs).2.1⟩)

theorem strippedNorm_eq (path : List Char) :
    strippedNorm path = normalize_path_str path := by
  unfold strippedNorm
  rw [if_neg (normalize_head path)]

theorem mem_normalize_ne_bs {l : List Char} {c : Char}
    (h : c ∈ normalize_path_str l) : c ≠ '\\' := by
  rcases mem_joinSep h with h1 | ⟨s, hs, hc⟩
  · subst h1; decide
  · exact fun he => (normSegs_good l s hs).2.2 (he ▸ hc)

theorem dropWhile_eq_self_of {α : Type} (p : α → Bool) (l : List α)
    (h : ∀ c ∈ l, p c = false) : l.dropWhile p = l := by
  cases l with
  | nil => rfl
  | cons c cs => simp [List.dropWhile_cons, h c (by simp)]

theorem rustTrim_eq_self {l : List Char}
    (h : ∀ c ∈ l, rustIsWhitespace c = false) : rustTrim l = l := by
  unfold rustTrim
  rw [dropWhile_eq_self_of _ _ h,
    dropWhile_eq_self_of _ _ (fun c hc => h c (List.mem_reverse.mp hc)),
    List.reverse_reverse]

theorem normalize_allSep {l : List Char} (h : ∀ c ∈ l, c = '/' ∨ c = '\\') :
    normalize_path_str l = [] := by
  have hsegs : normSegs l = [] := by
    simp only [normSegs, splitSegs]
    rw [List.filter_eq_nil_iff]
    intro s hmem
    cases s with
    | nil => simp
    | cons c cs =>
      exfalso
      obtain ⟨hmap, hne⟩ :=
        mem_of_mem_splitOnChar hmem (List.mem_cons_self c cs)
      simp only [List.mem_map] at hmap
      obtain ⟨d, hd, hrepl⟩ := hmap
      rcases h d hd with h1 | h1 <;> subst h1 <;>
        simp [replSep] at hrepl <;> exact hne hrepl.symm
  unfold normalize_path_str
  rw [hsegs]
  rfl

/-- C6: normalize_path_str is idempotent over all strings, total, and maps the
empty string to the empty string. -/
theorem C6_normalize_idempotent_total :
    (∀ l : List Char,
      normalize_path_str (normalize_path_str l) = normalize_path_str l) ∧
    normalize_path_str [] = [] :=
  ⟨normalize_idem_aux, rfl⟩

/-- C9: every non-empty input consisting only of separator characters is
sanitized to Ok of the empty string; emptiness is only tested on the raw
input, never on the normalized result. -/
theorem C9_separator_only_gives_ok_empty (w : Bool) (l : List Char)
    (h1 : l ≠ []) (h2 : ∀ c ∈ l, c = '/' ∨ c = '\\') :
    sanitize_directory_file_path w l = .ok [] := by
  have hws : ∀ c ∈ l, rustIsWhitespace c = false := by
    intro c hc
    rcases h2 c hc with h | h <;> subst h <;> decide
  have htrim : (rustTrim l).isEmpty = false := by
    rw [rustTrim_eq_self hws]
    exact List.isEmpty_eq_false.mpr h1
  have hnorm : normalize_path_str l = [] := normalize_allSep h2
  simp only [sanitize_directory_file_path, strippedNorm_eq, htrim, hnorm]
  cases w <;> rfl

/-- C9 witness: the slash alone is sanitized to Ok of the empty string. -/
theorem C9_witness :
    sanitize_directory_file_path false "/".toList = .ok [] :=
  C9_separator_only_gives_ok_empty false "/".toList (by decide)
    (by decide)

/-- C5: whenever the raw input is not whitespace-only and its normalization
contains the two-character dot-dot substring, sanitization rejects it as
PathTraversal carrying the original input; the check runs before the
absolute-prefix strip, so partial traversal such as a rooted dot-dot path is
rejected rather than stripped and re-checked. -/
theorem C5_traversal_checked_before_strip (w : Bool) (raw : List Char)
    (h1 : (rustTrim raw).isEmpty = false)
    (h2 : hasSubstr ['.', '.'] (normalize_path_str raw) = true) :
    sanitize_directory_file_path w raw = .error (.pathTraversal raw) := by
  simp [sanitize_directory_file_path, h1, h2]

/-- C5 witness: the rooted traversal path and the nested traversal path are
both rejected as PathTraversal. -/
theorem C5_witness :
    sanitize_directory_file_path false "/../etc".toList =
      .error (.pathTraversal "/../etc".toList) ∧
    sanitize_directory_file_path false "lib/../../../etc/passwd".toList =
      .error (.pathTraversal "lib/../../../etc/passwd".toList) :=
  ⟨C5_traversal_checked_before_strip false "/../etc".toList (by decide)
      (by decide),
    C5_traversal_checked_before_strip false "lib/../../../etc/passwd".toList
      (by decide) (by decide)⟩

/-- C8: every error returned by validate_path or by
sanitize_directory_file_path that carries a path payload carries the original
input string, not a transformed one. -/
theorem C8_error_payload_is_original (w : Bool) (l : List Char) (e : PathError)
    (h : validate_path l = .error e ∨
      sanitize_directory_file_path w l = .error e) :
    ∀ p, payloadPath e = some p → p = l := by
  intro p hp
  rcases h with h | h
  · unfold validate_path at h
    repeat' split at h
    all_goals try (injection h with h)
    all_goals try subst h
    all_goals
      first
        | exact absurd h (by simp)
        | exact (Option.some.inj hp).symm
        | exact Option.noConfusion
            (show (none : Option (List Char)) = some p from hp)
  · unfold sanitize_directory_file_path at h
    repeat' split at h
    all_goals try (injection h with h)
    all_goals try subst h
    all_goals
      first
        | exact absurd h (by simp)
        | exact (Option.some.inj hp).symm
        | exact Option.noConfusion
            (show (none : Option (List Char)) = some p from hp)

/-- C8 witness: the PathTraversal produced by validating the bare dot-dot
string carries the bare dot-dot string itself. -/
theorem C8_witness : (['.', '.'] : List Char) = ['.', '.'] :=
  C8_error_payload_is_original false ['.', '.']
    (.pathTraversal ['.', '.']) (Or.inl (by decide)) ['.', '.'] rfl

/-- C4: the boolean validator and the diagnostic validator agree on every
string: is_safe_path holds exactly when validate_path returns Ok. -/
theorem C4_is_safe_iff_validate_ok (l : List Char) :
    is_safe_path l = true ↔ validate_path l = .ok () := by
  unfold is_safe_path validate_path
  split_ifs with h1 h2 h3 h4 h5
  · simp
  · simp
  · simp
  · simp
  · cases hf : (chainComps l).find? isReservedComp with
    | none =>
      obtain ⟨x, hx, hpx⟩ := List.any_eq_true.mp h5
      exact absurd hpx (List.find?_eq_none.mp hf x hx)
    | some f => simp [hf]
  · cases hf : (chainComps l).find? isReservedComp with
    | none => simp [hf]
    | some f =>
      have hpf := List.find?_some hf
      have hmf := List.mem_of_find?_eq_some hf
      exact absurd (List.any_eq_true.mpr ⟨f, hmf, hpf⟩) h5

/-- The conjunction of invariants claim C2 asserts of a successfully
sanitized path: no backslash, a fixpoint of normalization (hence free of
empty segments and forward-slash separated), relative, free of the dot-dot
substring, free of the disallowed characters and of dangerous control
characters, and with no reserved component. -/
def SanitizedInvariant (p : List Char) : Prop :=
  (∀ c ∈ p, c ≠ '\\') ∧
  normalize_path_str p = p ∧
  p.head? ≠ some '/' ∧
  hasSubstr ['.', '.'] p = false ∧
  (∀ c ∈ p, badChars.contains c = false) ∧
  (∀ c ∈ p, isDangerControl c = false) ∧
  (∀ comp ∈ splitOnChar '/' p, isReservedComp comp = false)

/-- C2: every Ok result of sanitize_directory_file_path is a normalized,
relative path with no dot-dot substring, no disallowed or dangerous control
character, and no reserved component. -/
theorem C2_sanitize_ok_invariant (w : Bool) (raw p : List Char)
    (h : sanitize_directory_file_path w raw = .ok p) : SanitizedInvariant p := by
  unfold sanitize_directory_file_path at h
  rw [strippedNorm_eq] at h
  by_cases h1 : (rustTrim raw).isEmpty = true
  · rw [if_pos h1] at h
    exact absurd h (by simp)
  · rw [if_neg h1] at h
    by_cases h2 : hasSubstr ['.', '.'] (normalize_path_str raw) = true
    · rw [if_pos h2] at h
      exact absurd h (by simp)
    · rw [if_neg h2] at h
      by_cases h3 : (w && (normalize_path_str raw).length > 1 &&
          decide ((normalize_path_str raw)[1]? = some ':')) = true
      · rw [if_pos h3] at h
        exact absurd h (by simp)
      · rw [if_neg h3] at h
        by_cases h4 : ((normalize_path_str raw).contains '\x00' ||
            (normalize_path_str raw).any isDangerControl) = true
        · rw [if_pos h4] at h
          exact absurd h (by simp)
        · rw [if_neg h4] at h
          by_cases h5 : (badChars.any
              (fun c => (normalize_path_str raw).contains c)) = true
          · rw [if_pos h5] at h
            exact absurd h (by simp)
          · rw [if_neg h5] at h
            cases hf : (splitOnChar '/'
                (normalize_path_str raw)).find? isReservedComp with
            | some comp =>
              rw [hf] at h
              exact absurd h (by simp)
            | none =>
              rw [hf] at h
              have hpN : normalize_path_str raw = p := Except.ok.inj h
              subst hpN
              refine ⟨fun c hc => mem_normalize_ne_bs hc,
                normalize_idem_aux raw, normalize_head raw,
                Bool.eq_false_iff.mpr h2, ?_, ?_, ?_⟩
              · intro c hc
                by_contra hcc
                have hcc2 : badChars.contains c = true := by
                  cases hk : badChars.contains c
                  · exact absurd hk hcc
                  · rfl
                have hcb : c ∈ badChars := List.elem_iff.mp hcc2
                have hNc : (normalize_path_str raw).contains c = true :=
                  List.elem_iff.mpr hc
                exact h5 (List.any_eq_true.mpr ⟨c, hcb, hNc⟩)
              · intro c hc
                have h4r : (normalize_path_str raw).any isDangerControl
                    = false := by
                  cases hk : (normalize_path_str raw).any isDangerControl
                  · rfl
                  · exact absurd (by simp [hk]) h4
                have := List.any_eq_false.mp h4r c hc
                cases hk : isDangerControl c
                · rfl
                · exact absurd hk this
              · intro comp hcomp
                have := List.find?_eq_none.mp hf comp hcomp
                cases hk : isReservedComp comp
                · rfl
                · exact absurd hk this

/-- C2 witness: sanitizing the rooted script path succeeds and its result
satisfies every invariant of the claim. -/
theorem C2_witness : SanitizedInvariant ("args.js".toList) :=
  C2_sanitize_ok_invariant false "/args.js".toList "args.js".toList (by decide)

/-- C3 counterexample: the input with a reserved segment bounded by a slash on
the left and a backslash on the right satisfies every hypothesis of the claim
(non-whitespace, no dot-dot substring, no disallowed or dangerous control
characters) and has a reserved segment under the joint two-separator split the
claim describes, yet is_safe_path accepts it and validate_path returns Ok,
contradicting the claimed ReservedName rejection. -/
theorem C3_counterexample :
    (rustTrim "a/CON\\b".toList).isEmpty = false ∧
    hasSubstr ['.', '.'] "a/CON\\b".toList = false ∧
    ("a/CON\\b".toList.contains '\x00' ||
      "a/CON\\b".toList.any isDangerControl) = false ∧
    badChars.any (fun c => "a/CON\\b".toList.contains c) = false ∧
    (splitOnSeps "a/CON\\b".toList).any isReservedComp = true ∧
    is_safe_path "a/CON\\b".toList = true ∧
    validate_path "a/CON\\b".toList = .ok () := by
  decide

/-- C3 amended: the reserved-name rule fires on the components of the two
chained full splits the code actually performs (the whole string split on the
slash, followed by the whole string split on the backslash), not on the joint
two-separator segmentation; under the claim preconditions, a reserved
component in either full split makes is_safe_path false and validate_path
return ReservedName. -/
theorem C3_amended_reserved_in_chained_splits (s : List Char)
    (h1 : (rustTrim s).isEmpty = false)
    (h2 : hasSubstr ['.', '.'] s = false)
    (h3 : (s.contains '\x00' || s.any isDangerControl) = false)
    (h4 : badChars.any (fun c => s.contains c) = false)
    (h5 : (chainComps s).any isReservedComp = true) :
    is_safe_path s = false ∧
    ∃ f, validate_path s = .error (.reservedFilename f s) := by
  constructor
  · simp [is_safe_path, h1, h2, h3, h4, h5]
  · obtain ⟨x, hx, hpx⟩ := List.any_eq_true.mp h5
    cases hf : (chainComps s).find? isReservedComp with
    | none => exact absurd hpx (List.find?_eq_none.mp hf x hx)
    | some f =>
      refine ⟨f, ?_⟩
      unfold validate_path
      rw [if_neg (by simp [h1]), if_neg (by simp [h2]),
        if_neg (by simpa using h3), if_neg (by simpa using h4), hf]

/-- C3 amended witness: the bare reserved name CON is rejected by both
validators with a ReservedName error. -/
theorem C3_amended_witness :
    is_safe_path "CON".toList = false ∧
    ∃ f, validate_path "CON".toList =
      .error (.reservedFilename f "CON".toList) :=
  C3_amended_reserved_in_chained_splits "CON".toList (by decide) (by decide)
    (by decide) (by decide) (by decide)

theorem dropWhile_eq_self_head {α : Type} {p : α → Bool} {l : List α}
    (h : ∀ x, l.head? = some x → p x = false) : l.dropWhile p = l := by
  cases l with
  | nil => rfl
  | cons c cs => simp [List.dropWhile_cons, h c rfl]

theorem trimStart_eq_self {c : Char} {l : List Char}
    (h : l.head? ≠ some c) : trimStartMatches c l = l := by
  unfold trimStartMatches
  refine dropWhile_eq_self_head (fun x hx => ?_)
  have : x ≠ c := fun he => h (he ▸ hx)
  simpa using this

theorem trimEnd_eq_self {c : Char} {l : List Char}
    (h : l.getLast? ≠ some c) : trimEndMatches c l = l := by
  unfold trimEndMatches
  rw [dropWhile_eq_self_head (fun x hx => ?_), List.reverse_reverse]
  have hx2 : l.getLast? = some x := by rw [← List.head?_reverse]; exact hx
  have : x ≠ c := fun he => h (he ▸ hx2)
  simpa using this

theorem goodSegs_append {s1 s2 : List (List Char)}
    (h1 : ∀ s ∈ s1, s ≠ [] ∧ '/' ∉ s ∧ '\\' ∉ s)
    (h2 : ∀ s ∈ s2, s ≠ [] ∧ '/' ∉ s ∧ '\\' ∉ s) :
    ∀ s ∈ s1 ++ s2, s ≠ [] ∧ '/' ∉ s ∧ '\\' ∉ s := by
  intro s hs
  rcases List.mem_append.mp hs with h | h
  · exact h1 s h
  · exact h2 s h

theorem joinSep_nil_of_eq_nil {segs : List (List Char)}
    (hgood : ∀ s ∈ segs, s ≠ [] ∧ '/' ∉ s ∧ '\\' ∉ s)
    (h : joinSep '/' segs = []) : segs = [] := by
  by_contra hne
  exact joinSep_ne_nil hne (fun s hs => (hgood s hs).1) h

theorem normalize_append_segs (x y : List Char) :
    normalize_path_str (x ++ '/' :: y) =
      joinSep '/' (normSegs x ++ normSegs y) := by
  unfold normalize_path_str
  rw [normSegs_append]

theorem jn_segs {x y : List Char} (hx0 : x ≠ []) (hy0 : y ≠ [])
    (hx2 : x.getLast? ≠ some '/') (hy1 : y.head? ≠ some '/') :
    join_and_normalize x y = joinSep '/' (normSegs x ++ normSegs y) := by
  unfold join_and_normalize
  rw [trimEnd_eq_self hx2, trimStart_eq_self hy1]
  rw [if_neg (by simpa using hx0), if_neg (by simpa using hy0)]
  exact normalize_append_segs x y

theorem jn_left {x : List Char} {segs : List (List Char)}
    (hx0 : x ≠ []) (hx2 : x.getLast? ≠ some '/')
    (hgood : ∀ s ∈ segs, s ≠ [] ∧ '/' ∉ s ∧ '\\' ∉ s) :
    join_and_normalize x (joinSep '/' segs) =
      joinSep '/' (normSegs x ++ segs) := by
  have hhead : (joinSep '/' segs).head? ≠ some '/' :=
    joinSep_head (fun s hs => ⟨(hgood s hs).1, (hgood s hs).2.1⟩)
  unfold join_and_normalize
  rw [trimEnd_eq_self hx2, trimStart_eq_self hhead]
  rw [if_neg (by simpa using hx0)]
  by_cases hS : (joinSep '/' segs).isEmpty = true
  · rw [if_pos hS]
    have hsegs : segs = [] :=
      joinSep_nil_of_eq_nil hgood (List.isEmpty_iff.mp hS)
    subst hsegs
    simp [joinSep, normalize_path_str]
  · rw [if_neg hS, normalize_append_segs, normSegs_joinSep hgood]

theorem jn_right {segs : List (List Char)} {y : List Char}
    (hy0 : y ≠ []) (hy1 : y.head? ≠ some '/')
    (hgood : ∀ s ∈ segs, s ≠ [] ∧ '/' ∉ s ∧ '\\' ∉ s) :
    join_and_normalize (joinSep '/' segs) y =
      joinSep '/' (segs ++ normSegs y) := by
  have hlast : (joinSep '/' segs).getLast? ≠ some '/' :=
    joinSep_getLast (fun s hs => ⟨(hgood s hs).1, (hgood s hs).2.1⟩)
  unfold join_and_normalize
  rw [trimEnd_eq_self hlast, trimStart_eq_self hy1]
  by_cases hS : (joinSep '/' segs).isEmpty = true
  · rw [if_pos hS]
    have hsegs : segs = [] :=
      joinSep_nil_of_eq_nil hgood (List.isEmpty_iff.mp hS)
    subst hsegs
    simp [normalize_path_str]
  · rw [if_neg hS, if_neg (by simpa using hy0), normalize_append_segs,
      normSegs_joinSep hgood]

/-- C7: join_and_normalize is associative on non-empty safe relative segments
with no leading and no trailing separator. -/
theorem C7_join_and_normalize_assoc (a b c : List Char)
    (ha0 : a ≠ []) (hb0 : b ≠ []) (hc0 : c ≠ [])
    (hsa : is_safe_path a = true) (hsb : is_safe_path b = true)
    (hsc : is_safe_path c = true)
    (ha1 : a.head? ≠ some '/') (ha2 : a.getLast? ≠ some '/')
    (hb1 : b.head? ≠ some '/') (hb2 : b.getLast? ≠ some '/')
    (hc1 : c.head? ≠ some '/') (hc2 : c.getLast? ≠ some '/') :
    join_and_normalize a (join_and_normalize b c) =
      join_and_normalize (join_and_normalize a b) c := by
  rw [jn_segs hb0 hc0 hb2 hc1, jn_segs ha0 hb0 ha2 hb1]
  rw [jn_left ha0 ha2 (goodSegs_append (normSegs_good b) (normSegs_good c))]
  rw [jn_right hc0 hc1 (goodSegs_append (normSegs_good a) (normSegs_good b))]
  rw [List.append_assoc]

/-- C7 witness: three concrete one-letter segments associate. -/
theorem C7_witness :
    join_and_normalize "a".toList
        (join_and_normalize "b".toList "c".toList) =
      join_and_normalize (join_and_normalize "a".toList "b".toList)
        "c".toList :=
  C7_join_and_normalize_assoc "a".toList "b".toList "c".toList
    (by decide) (by decide) (by decide) (by decide) (by decide) (by decide)
    (by decide) (by decide) (by decide) (by decide) (by decide) (by decide)

theorem splitOnChar_cons_ne {sep c : Char} (a : List Char) (hc : c ≠ sep) :
    ∃ s ts, splitOnChar sep (c :: a) = (c :: s) :: ts := by
  cases h : splitOnChar sep a with
  | nil => exact absurd h (splitOnChar_ne_nil sep a)
  | cons s ss =>
    refine ⟨s, ss, ?_⟩
    simp only [splitOnChar]
    rw [h]
    show (if c = sep then [] :: s :: ss else (c :: s) :: ss) = (c :: s) :: ss
    rw [if_neg hc]

theorem splitSegs_cons_ne {c : Char} (a : List Char) (hc : c ≠ '/') :
    ∃ s ts, splitSegs (c :: a) = (c :: s) :: ts := by
  obtain ⟨s, ts, h⟩ := splitOnChar_cons_ne a hc
  refine ⟨s, ts.filter (fun x => !x.isEmpty), ?_⟩
  unfold splitSegs
  rw [h, List.filter_cons_of_pos (by simp)]

theorem splitSegs_append (u v : List Char) :
    splitSegs (u ++ '/' :: v) = splitSegs u ++ splitSegs v := by
  unfold splitSegs
  rw [splitOnChar_append, List.filter_append]

theorem bodyComps_append (s1 s2 : List (List Char)) :
    bodyComps (s1 ++ s2) = bodyComps s1 ++ bodyComps s2 := by
  unfold bodyComps
  rw [List.filter_append, List.map_append]

theorem components_abs {l : List Char} (h : l.head? = some '/') :
    components l = .rootDir :: bodyComps (splitSegs l) := by
  unfold components
  rw [if_pos h]

theorem components_cons_rel {c : Char} {a s : List Char}
    {ts : List (List Char)} (hc : c ≠ '/')
    (hsplit : splitSegs (c :: a) = (c :: s) :: ts) :
    components (c :: a) =
      (if c :: s = ['.'] then RComponent.curDir else mkComp (c :: s)) ::
        bodyComps ts := by
  unfold components
  rw [if_neg (by simpa using hc), hsplit]

theorem components_append {a : List Char} (b : List Char) (ha : a ≠ []) :
    components (a ++ '/' :: b) = components a ++ bodyComps (splitSegs b) := by
  obtain ⟨c, a1, rfl⟩ : ∃ c a1, a = c :: a1 := by
    cases a with
    | nil => exact absurd rfl ha
    | cons c a1 => exact ⟨c, a1, rfl⟩
  by_cases hc : c = '/'
  · subst hc
    rw [List.cons_append,
      components_abs (l := '/' :: (a1 ++ '/' :: b)) rfl,
      components_abs (l := '/' :: a1) rfl,
      show ('/' :: (a1 ++ '/' :: b)) = ('/' :: a1) ++ '/' :: b from rfl,
      splitSegs_append, bodyComps_append, List.cons_append]
  · obtain ⟨s, ts, hsplit⟩ := splitSegs_cons_ne a1 hc
    have hsplit2 : splitSegs (c :: (a1 ++ '/' :: b)) =
        (c :: s) :: (ts ++ splitSegs b) := by
      rw [show (c :: (a1 ++ '/' :: b)) = (c :: a1) ++ '/' :: b from rfl,
        splitSegs_append, hsplit, List.cons_append]
    rw [List.cons_append, components_cons_rel hc hsplit2,
      components_cons_rel hc hsplit, bodyComps_append, List.cons_append]

theorem components_prefix_pbJoin (a b : List Char)
    (hb : b.head? ≠ some '/') :
    components a <+: components (pbJoin a b) := by
  unfold pbJoin
  rw [if_neg hb]
  cases hl : a.getLast? with
  | none =>
    rw [List.getLast?_eq_none_iff.mp hl]
    show components ([] : List Char) <+: components b
    rw [show components ([] : List Char) = [] from rfl]
    exact List.nil_prefix
  | some ch =>
    show components a <+:
      components (if ch = '/' then a ++ b else a ++ '/' :: b)
    have ha : a ≠ [] := by
      intro h
      rw [h] at hl
      simp at hl
    by_cases hch : ch = '/'
    · subst hch
      rw [if_pos rfl]
      have hg : a.getLast ha = '/' :=
        Option.some.inj ((List.getLast?_eq_getLast a ha).symm.trans hl)
      have hsplit : a.dropLast ++ ['/'] = a := by
        have hd := List.dropLast_append_getLast ha
        rw [hg] at hd
        exact hd
      cases hd : a.dropLast with
      | nil =>
        have ha2 : a = ['/'] := by
          rw [← hsplit, hd]
          rfl
        rw [ha2, show (['/'] : List Char) ++ b = '/' :: b from rfl,
          show components ['/'] = [RComponent.rootDir] from rfl,
          components_abs (l := '/' :: b) rfl]
        exact List.cons_prefix_cons.mpr ⟨rfl, List.nil_prefix⟩
      | cons d ds =>
        have hne : a.dropLast ≠ [] := by
          rw [hd]
          simp
        have e1 : components a = components a.dropLast := by
          conv_lhs => rw [← hsplit]
          rw [show a.dropLast ++ ['/'] = a.dropLast ++ '/' :: [] from rfl,
            components_append [] hne,
            show bodyComps (splitSegs ([] : List Char)) = [] from rfl,
            List.append_nil]
        have e2 : components (a ++ b) =
            components a.dropLast ++ bodyComps (splitSegs b) := by
          conv_lhs => rw [← hsplit]
          rw [show a.dropLast ++ ['/'] ++ b = a.dropLast ++ '/' :: b from by
            rw [List.append_assoc]
            rfl]
          exact components_append b hne
        rw [e1, e2]
        exact List.prefix_append _ _
    · rw [if_neg hch, components_append b ha]
      exact List.prefix_append _ _

theorem sanitize_ok_eq (w : Bool) (raw p : List Char)
    (h : sanitize_directory_file_path w raw = .ok p) :
    p = normalize_path_str raw := by
  unfold sanitize_directory_file_path at h
  rw [strippedNorm_eq] at h
  repeat' split at h
  all_goals first
    | exact (Except.ok.inj h).symm
    | exact absurd h (by simp)

theorem sanitize_isCF_false (w : Bool) (l : List Char) :
    isConstructionFailedE (sanitize_directory_file_path w l) = false := by
  unfold sanitize_directory_file_path
  repeat' split
  all_goals rfl

theorem isCF_tail (rel : List RComponent) (p : List Char) :
    isConstructionFailedE
      (if rel.any isParentDir then
        (Except.error (.pathTraversal (".. components not allowed".toList)) :
          Except PathError (List Char))
      else .ok p) = false := by
  split <;> rfl

/-- C10: on the Unix branch, safe_repository_join never returns
ConstructionFailed: the normalized target and the sanitized file path are both
relative, so the joined path always keeps the canonical workdir components as
a prefix and the strip-prefix failure branch is unreachable. -/
theorem C10_no_construction_failed_on_unix
    (canon : List Char → Option (List Char)) (wd tgt fp : List Char) :
    isConstructionFailedE (safe_repository_join false canon wd tgt fp)
      = false := by
  unfold safe_repository_join
  cases hs : sanitize_directory_file_path false fp with
  | error e =>
    have he := sanitize_isCF_false false fp
    rw [hs] at he
    exact he
  | ok sfp =>
    cases hc : canon wd with
    | none => rfl
    | some cr =>
      have hpre : components cr <+:
          components (pbJoin (pbJoin cr (normalize_path_str tgt)) sfp) := by
        have h1 := components_prefix_pbJoin cr (normalize_path_str tgt)
          (normalize_head tgt)
        have h2 := components_prefix_pbJoin
          (pbJoin cr (normalize_path_str tgt)) sfp
          (by rw [sanitize_ok_eq false fp sfp hs]; exact normalize_head fp)
        exact h1.trans h2
      have hred : isConstructionFailedE
          (match stripPrefixC (components cr)
              (components (pbJoin (pbJoin cr (normalize_path_str tgt))
                sfp)) with
            | none => (Except.error (PathError.constructionFailed
                ("Path construction failed - result not within workdir".toList))
                : Except PathError (List Char))
            | some relativeToWorkdir =>
              if relativeToWorkdir.any isParentDir then
                Except.error
                  (.pathTraversal (".. components not allowed".toList))
              else
                Except.ok (pbJoin (pbJoin cr (normalize_path_str tgt)) sfp))
          = false := by
        unfold stripPrefixC
        rw [if_pos hpre]
        exact isCF_tail _ _
      exact hred

/-- C1: whenever safe_repository_join returns Ok p with the workdir
canonicalizing to cr, the component list of cr is a prefix of the component
list of p, and no component of the relative remainder from cr to p is a
ParentDir component. -/
theorem C1_join_ok_descendant_no_parent (w : Bool)
    (canon : List Char → Option (List Char)) (wd tgt fp p cr : List Char)
    (hc : canon wd = some cr)
    (h : safe_repository_join w canon wd tgt fp = .ok p) :
    components cr <+: components p ∧
    ∀ comp ∈ (components p).drop (components cr).length,
      comp ≠ RComponent.parentDir := by
  unfold safe_repository_join at h
  cases hs : sanitize_directory_file_path w fp with
  | error e =>
    rw [hs] at h
    exact absurd h (by simp)
  | ok sfp =>
    rw [hs, hc] at h
    have h2 : (match stripPrefixC (components cr)
        (components (pbJoin (pbJoin cr (normalize_path_str tgt)) sfp)) with
      | none => (Except.error (PathError.constructionFailed
          ("Path construction failed - result not within workdir".toList))
          : Except PathError (List Char))
      | some relativeToWorkdir =>
        if relativeToWorkdir.any isParentDir then
          Except.error (.pathTraversal (".. components not allowed".toList))
        else Except.ok (pbJoin (pbJoin cr (normalize_path_str tgt)) sfp))
        = Except.ok p := h
    clear h
    cases hstrip : stripPrefixC (components cr)
        (components (pbJoin (pbJoin cr (normalize_path_str tgt)) sfp)) with
    | none =>
      rw [hstrip] at h2
      exact absurd h2 (by simp)
    | some rel =>
      rw [hstrip] at h2
      have h : (if rel.any isParentDir then
          (Except.error
            (PathError.pathTraversal (".. components not allowed".toList)) :
            Except PathError (List Char))
          else Except.ok (pbJoin (pbJoin cr (normalize_path_str tgt)) sfp))
          = Except.ok p := h2
      clear h2
      by_cases hany : rel.any isParentDir = true
      · rw [if_pos hany] at h
        exact absurd h (by simp)
      · rw [if_neg hany] at h
        have hp : pbJoin (pbJoin cr (normalize_path_str tgt)) sfp = p :=
          Except.ok.inj h
        unfold stripPrefixC at hstrip
        by_cases hpre : components cr <+:
            components (pbJoin (pbJoin cr (normalize_path_str tgt)) sfp)
        · rw [if_pos hpre] at hstrip
          have hrel : rel = (components
              (pbJoin (pbJoin cr (normalize_path_str tgt)) sfp)).drop
                (components cr).length :=
            (Option.some.inj hstrip).symm
          subst hp
          refine ⟨hpre, fun comp hcomp hbad => ?_⟩
          apply hany
          apply List.any_eq_true.mpr
          refine ⟨comp, hrel ▸ hcomp, ?_⟩
          rw [hbad]
          rfl
        · rw [if_neg hpre] at hstrip
          exact Option.noConfusion hstrip

/-- C1 witness: a concrete join of a canonical root, a target directory and a
rooted file name lands inside the root with no ParentDir remainder. -/
theorem C1_witness :
    components "/r".toList <+: components "/r/t/a.js".toList ∧
    ∀ comp ∈ (components "/r/t/a.js".toList).drop
      (components "/r".toList).length,
      comp ≠ RComponent.parentDir :=
  C1_join_ok_descendant_no_parent false (fun _ => some "/r".toList)
    "/r".toList "t".toList "/a.js".toList "/r/t/a.js".toList "/r".toList
    rfl (by decide)

end PathUtils
